import Mathlib

set_option maxHeartbeats 1000000

/-!
Verification of the namespacing/prefixing storage layer of this repository.

The file embeds, as executable Lean definitions, the length-prefix codec, the
namespace helpers and the prefixed storage view described by the specification
and by `packages/storage/src/prefixed_storage.rs`, and proves the stated
properties about them.  The codec and the namespace helpers live in source
files that are not part of the provided sources (only their caller
`prefixed_storage.rs` is); those definitions are modelled from the
specification, as their doc comments record.
-/

namespace CwStorage

/-- Byte strings are modelled as lists of natural numbers; the predicate
`allBytes` below records that every element actually fits in one byte. -/
abbrev Bytes := List Nat

/-- Every element of the byte string is an actual byte, i.e. below 256. -/
def allBytes (k : Bytes) : Prop := ∀ b ∈ k, b < 256

instance (k : Bytes) : Decidable (allBytes k) :=
  inferInstanceAs (Decidable (∀ b ∈ k, b < 256))

/-- Modelled from the spec: the iteration order of the consumed range
interface (`Order` of `cosmwasm_std`, used but not defined under the provided
sources). -/
inductive Order where
  | Ascending
  | Descending
deriving DecidableEq

/-- Strict lexicographic order on byte strings, as used by the physical
store for range scans. -/
def lexLt : Bytes → Bytes → Bool
  | [], [] => false
  | [], _ :: _ => true
  | _ :: _, [] => false
  | a :: as, b :: bs => if a < b then true else if b < a then false else lexLt as bs

/-- Non-strict lexicographic order on byte strings. -/
def lexLe (x y : Bytes) : Bool := !(lexLt y x)

/-- Modelled from the spec: the underlying flat key-value store (the consumed
interface of section 6, an external collaborator whose implementation is not
part of the provided sources), represented as an association list of
(physical key, value) entries. -/
abbrev Store := List (Bytes × Bytes)

/-- Modelled from the spec: `get` of the consumed flat-store interface;
returns the value of the first entry carrying the requested key. -/
def flatGet (s : Store) (k : Bytes) : Option Bytes :=
  match s with
  | [] => none
  | kv :: rest => if kv.1 = k then some kv.2 else flatGet rest k

/-- Modelled from the spec: `set` of the consumed flat-store interface;
inserts the entry at its lexicographic position, silently overwriting an
existing entry with the same key. -/
def flatSet (s : Store) (k v : Bytes) : Store :=
  match s with
  | [] => [(k, v)]
  | kv :: rest =>
    if lexLt k kv.1 then (k, v) :: kv :: rest
    else if kv.1 = k then (k, v) :: rest
    else kv :: flatSet rest k v

/-- Modelled from the spec: `remove` of the consumed flat-store interface;
deletes the entry if present, a no-op otherwise. -/
def flatRemove (s : Store) (k : Bytes) : Store :=
  s.filter (fun kv => kv.1 != k)

/-- Does the physical key `k` lie inside the half-open window given by the
optional inclusive lower bound and exclusive upper bound? -/
def inRange (lo hi : Option Bytes) (k : Bytes) : Bool :=
  (match lo with
   | none => true
   | some a => lexLe a k) &&
  (match hi with
   | none => true
   | some b => lexLt k b)

/-- Modelled from the spec: `range` of the consumed flat-store interface:
the entries inside the window, in store order when ascending and reversed
when descending. -/
def flatRange (s : Store) (lo hi : Option Bytes) (ord : Order) : List (Bytes × Bytes) :=
  match ord with
  | Order.Ascending => s.filter (fun kv => inRange lo hi kv.1)
  | Order.Descending => (s.filter (fun kv => inRange lo hi kv.1)).reverse

/-- Modelled from the spec: `encode_length` of `length_prefixed.rs` (absent
from the provided sources): the 2-byte big-endian length header of one
namespace segment.  A segment longer than 0xFFFF bytes is a fatal error,
modelled as `none`; the length is neither truncated nor wrapped. -/
def encodeLength (ns : Bytes) : Option Bytes :=
  if 65535 < ns.length then none
  else some [ns.length / 256, ns.length % 256]

/-- Modelled from the spec: `to_length_prefixed` of `length_prefixed.rs`
(absent from the provided sources): the 2-byte big-endian length header
followed by the raw bytes of the segment. -/
def toLengthPrefixed (ns : Bytes) : Option Bytes :=
  (encodeLength ns).map (fun h => h ++ ns)

/-- Modelled from the spec: `to_length_prefixed_nested` of
`length_prefixed.rs` (absent from the provided sources): every segment
encoded as header followed by raw bytes, concatenated in list order with no
trailing separator. -/
def toLengthPrefixedNested (nss : List Bytes) : Option Bytes :=
  match nss with
  | [] => some []
  | ns :: rest =>
    match toLengthPrefixed ns, toLengthPrefixedNested rest with
    | some h, some t => some (h ++ t)
    | _, _ => none

/-- Modelled from the spec: `get_with_prefix` of `namespace_helpers.rs`
(absent from the provided sources): read the physical key `p ++ k` through
the wrapped get capability. -/
def getWithPrefix {σ : Type} (g : σ → Bytes → Option Bytes) (s : σ) (p k : Bytes) :
    Option Bytes :=
  g s (p ++ k)

/-- Modelled from the spec: `set_with_prefix` of `namespace_helpers.rs`
(absent from the provided sources): write the physical key `p ++ k` through
the wrapped set capability. -/
def setWithPrefix {σ : Type} (st : σ → Bytes → Bytes → σ) (s : σ) (p k v : Bytes) : σ :=
  st s (p ++ k) v

/-- Modelled from the spec: `remove_with_prefix` of `namespace_helpers.rs`
(absent from the provided sources): delete the physical key `p ++ k` through
the wrapped remove capability. -/
def removeWithPrefix {σ : Type} (rm : σ → Bytes → σ) (s : σ) (p k : Bytes) : σ :=
  rm s (p ++ k)

/-- Modelled from the spec: the exclusive physical upper bound used by a
range scan that is unbounded above: the prefix incremented by one in its
last byte (bytes being modelled as natural numbers, the increment does not
wrap), or no bound at all when the prefix consists entirely of 0xFF bytes
(section 9 of the spec leaves the carry behaviour at a trailing 0xFF open;
the non-wrapping increment realises the supremum of the namespace's key
space). -/
def namespaceUpperBound (p : Bytes) : Option Bytes :=
  if p.all (fun b => b == 255) then none
  else some (p.dropLast ++ [p.getLast?.getD 0 + 1])

/-- The physical exclusive upper bound of a range scan: the prefix glued to
the logical upper bound when one is given, and the incremented prefix (or no
bound at all) when the scan is unbounded above. -/
def physEnd (p : Bytes) (endB : Option Bytes) : Option Bytes :=
  match endB with
  | some e => some (p ++ e)
  | none => namespaceUpperBound p

/-- Modelled from the spec: `range_with_prefix` of `namespace_helpers.rs`
(absent from the provided sources): translate the logical bounds into
physical bounds, delegate to the wrapped range capability, and strip the
prefix from every yielded key. -/
def rangeWithPrefix {σ : Type}
    (rg : σ → Option Bytes → Option Bytes → Order → List (Bytes × Bytes))
    (s : σ) (p : Bytes) (start endB : Option Bytes) (ord : Order) :
    List (Bytes × Bytes) :=
  (rg s (some (p ++ start.getD [])) (physEnd p endB) ord).map
    (fun kv => (kv.1.drop p.length, kv.2))

/-- The abstract storage capability set (get, set, remove, range) that the
Rust `Storage` trait provides; the prefixed view is generic over it, which is
what lets a view wrap either the flat store or another view. -/
structure StorageOps (σ : Type) where
  get : σ → Bytes → Option Bytes
  set : σ → Bytes → Bytes → σ
  remove : σ → Bytes → σ
  range : σ → Option Bytes → Option Bytes → Order → List (Bytes × Bytes)

/-- The flat store packaged as a storage capability. -/
def flatOps : StorageOps Store where
  get := flatGet
  set := flatSet
  remove := flatRemove
  range := flatRange

/-- The prefixed storage view of `prefixed_storage.rs`: the wrapped storage
capability together with the prefix computed once at construction time. -/
structure PrefixedStorage (σ : Type) where
  base : StorageOps σ
  pfx : Bytes

/-- `PrefixedStorage::new`: prefix computed by the single-segment codec. -/
def PrefixedStorage.new {σ : Type} (B : StorageOps σ) (ns : Bytes) :
    Option (PrefixedStorage σ) :=
  (toLengthPrefixed ns).map (fun p => ⟨B, p⟩)

/-- `PrefixedStorage::multilevel`: prefix computed by the nested codec. -/
def PrefixedStorage.multilevel {σ : Type} (B : StorageOps σ) (nss : List Bytes) :
    Option (PrefixedStorage σ) :=
  (toLengthPrefixedNested nss).map (fun p => ⟨B, p⟩)

/-- `PrefixedStorage::get`: delegation to the get namespace helper. -/
def PrefixedStorage.get {σ : Type} (v : PrefixedStorage σ) (s : σ) (k : Bytes) :
    Option Bytes :=
  getWithPrefix v.base.get s v.pfx k

/-- `PrefixedStorage::set`: delegation to the set namespace helper. -/
def PrefixedStorage.set {σ : Type} (v : PrefixedStorage σ) (s : σ) (k val : Bytes) : σ :=
  setWithPrefix v.base.set s v.pfx k val

/-- `PrefixedStorage::remove`: delegation to the remove namespace helper. -/
def PrefixedStorage.remove {σ : Type} (v : PrefixedStorage σ) (s : σ) (k : Bytes) : σ :=
  removeWithPrefix v.base.remove s v.pfx k

/-- `PrefixedStorage::range`: delegation to the range namespace helper. -/
def PrefixedStorage.range {σ : Type} (v : PrefixedStorage σ) (s : σ)
    (start endB : Option Bytes) (ord : Order) : List (Bytes × Bytes) :=
  rangeWithPrefix v.base.range s v.pfx start endB ord

/-- The four operations of a prefixed view packaged as a storage capability,
so that a view can itself be wrapped by another view (nesting). -/
def PrefixedStorage.toOps {σ : Type} (v : PrefixedStorage σ) : StorageOps σ where
  get := fun s k => v.get s k
  set := fun s k val => v.set s k val
  remove := fun s k => v.remove s k
  range := fun s a b o => v.range s a b o

/-- An alias of `PrefixedStorage.new` for less verbose usage
(`prefixed` of `prefixed_storage.rs`). -/
def prefixed {σ : Type} (B : StorageOps σ) (ns : Bytes) : Option (PrefixedStorage σ) :=
  PrefixedStorage.new B ns

/-- Modelled from the spec: the capability set of a read-only store: only
get and range, no mutation. -/
structure ReadonlyStorageOps (σ : Type) where
  get : σ → Bytes → Option Bytes
  range : σ → Option Bytes → Option Bytes → Order → List (Bytes × Bytes)

/-- Modelled from the spec: the read-only prefixed view (its source file is
absent from the provided sources): the same prefix computation and the same
delegation logic as the mutable view, but only the get and range
capabilities. -/
structure ReadonlyPrefixedStorage (σ : Type) where
  base : ReadonlyStorageOps σ
  pfx : Bytes

/-- Modelled from the spec: read-only view construction with a single
namespace; the prefix computation is shared with the mutable view. -/
def ReadonlyPrefixedStorage.new {σ : Type} (B : ReadonlyStorageOps σ) (ns : Bytes) :
    Option (ReadonlyPrefixedStorage σ) :=
  (toLengthPrefixed ns).map (fun p => ⟨B, p⟩)

/-- Modelled from the spec: read-only view construction with a namespace
list; the prefix computation is shared with the mutable view. -/
def ReadonlyPrefixedStorage.multilevel {σ : Type} (B : ReadonlyStorageOps σ)
    (nss : List Bytes) : Option (ReadonlyPrefixedStorage σ) :=
  (toLengthPrefixedNested nss).map (fun p => ⟨B, p⟩)

/-- Modelled from the spec: read-only get, delegating to the same namespace
helper as the mutable view. -/
def ReadonlyPrefixedStorage.get {σ : Type} (v : ReadonlyPrefixedStorage σ) (s : σ)
    (k : Bytes) : Option Bytes :=
  getWithPrefix v.base.get s v.pfx k

/-- Modelled from the spec: read-only range, delegating to the same
namespace helper as the mutable view. -/
def ReadonlyPrefixedStorage.range {σ : Type} (v : ReadonlyPrefixedStorage σ) (s : σ)
    (start endB : Option Bytes) (ord : Order) : List (Bytes × Bytes) :=
  rangeWithPrefix v.base.range s v.pfx start endB ord

/-- One storage operation, used to state observational equivalence of two
views over arbitrary call sequences. -/
inductive StorageOp where
  | get (k : Bytes)
  | set (k v : Bytes)
  | remove (k : Bytes)
  | range (start endB : Option Bytes) (ord : Order)

/-- The observation produced by one storage operation. -/
inductive Obs where
  | val (v : Option Bytes)
  | entries (l : List (Bytes × Bytes))
  | done
deriving DecidableEq

/-- Run one operation against a storage capability, returning the
observation and the successor state. -/
def applyOp {σ : Type} (V : StorageOps σ) (s : σ) : StorageOp → Obs × σ
  | StorageOp.get k => (Obs.val (V.get s k), s)
  | StorageOp.set k v => (Obs.done, V.set s k v)
  | StorageOp.remove k => (Obs.done, V.remove s k)
  | StorageOp.range a b o => (Obs.entries (V.range s a b o), s)

/-- Run a sequence of operations, collecting all observations. -/
def runOps {σ : Type} (V : StorageOps σ) (s : σ) : List StorageOp → List Obs × σ
  | [] => ([], s)
  | op :: rest =>
    let r := applyOp V s op
    let r2 := runOps V r.2 rest
    (r.1 :: r2.1, r2.2)

/-- Every key of the store is a genuine byte string. -/
def validStore (s : Store) : Prop := ∀ kv ∈ s, allBytes kv.1

instance (s : Store) : Decidable (validStore s) :=
  inferInstanceAs (Decidable (∀ kv ∈ s, allBytes kv.1))

section LexLemmas

theorem lexLt_nil_right (y : Bytes) : lexLt y [] = false := by
  cases y <;> rfl

theorem lexLt_cons_iff {a b : Nat} {x y : Bytes} :
    lexLt (a :: x) (b :: y) = true ↔ a < b ∨ (a = b ∧ lexLt x y = true) := by
  by_cases h1 : a < b
  · simp [lexLt, h1]
  · by_cases h2 : b < a
    · simp [lexLt, h1, h2]
      omega
    · have hab : a = b := by omega
      subst hab
      simp [lexLt, h1, h2]

theorem lexLe_cons_nil (a : Nat) (x : Bytes) : lexLe (a :: x) [] = false := rfl

theorem lexLe_nil (y : Bytes) : lexLe [] y = true := by
  simp [lexLe, lexLt_nil_right]

theorem lexLe_cons_iff {a b : Nat} {x y : Bytes} :
    lexLe (a :: x) (b :: y) = true ↔ a < b ∨ (a = b ∧ lexLe x y = true) := by
  constructor
  · intro h
    have hnot : ¬ lexLt (b :: y) (a :: x) = true := by
      simp only [lexLe] at h
      intro hc
      rw [hc] at h
      simp at h
    rcases Nat.lt_trichotomy a b with hab | hab | hab
    · exact Or.inl hab
    · refine Or.inr ⟨hab, ?_⟩
      subst hab
      simp only [lexLe]
      rcases Bool.eq_false_or_eq_true (lexLt y x) with ht | hf
      · exact absurd (lexLt_cons_iff.mpr (Or.inr ⟨rfl, ht⟩)) hnot
      · simp [hf]
    · exact absurd (lexLt_cons_iff.mpr (Or.inl hab)) hnot
  · intro h
    simp only [lexLe, Bool.not_eq_true']
    rcases h with hab | ⟨hab, hx⟩
    · rw [Bool.eq_false_iff]
      intro hc
      rcases lexLt_cons_iff.mp hc with hba | ⟨hba, _⟩ <;> omega
    · subst hab
      rw [Bool.eq_false_iff]
      intro hc
      rcases lexLt_cons_iff.mp hc with hba | ⟨_, hyx⟩
      · omega
      · simp only [lexLe, Bool.not_eq_true'] at hx
        rw [hx] at hyx
        cases hyx

theorem lexLt_append_left (x : Bytes) (a b : Bytes) :
    lexLt (x ++ a) (x ++ b) = lexLt a b := by
  induction x with
  | nil => rfl
  | cons c x ih => simp [lexLt, ih]

theorem lexLe_append_left (x : Bytes) (a b : Bytes) :
    lexLe (x ++ a) (x ++ b) = lexLe a b := by
  simp [lexLe, lexLt_append_left]

theorem lexLt_irrefl (x : Bytes) : lexLt x x = false := by
  induction x with
  | nil => rfl
  | cons a x ih => simp [lexLt, ih]

theorem lexLe_refl (x : Bytes) : lexLe x x = true := by
  simp [lexLe, lexLt_irrefl]

end LexLemmas

section WindowLemmas

/-- Any physical key of genuine bytes lying above an all-0xFF prefix (glued to
any logical lower bound) carries that prefix. -/
theorem prefix_of_window_ff : ∀ (p k a : Bytes), (∀ b ∈ p, b = 255) → allBytes k →
    lexLe (p ++ a) k = true → p <+: k := by
  intro p
  induction p with
  | nil => intro k a _ _ _; exact List.nil_prefix
  | cons b p' ih =>
    intro k a hff hk hlo
    cases k with
    | nil => rw [List.cons_append, lexLe_cons_nil] at hlo; cases hlo
    | cons c k' =>
      rw [List.cons_append] at hlo
      have hb : b = 255 := hff b (by simp)
      have hc : c < 256 := hk c (by simp)
      rcases lexLe_cons_iff.mp hlo with hlt | ⟨heq, hrest⟩
      · omega
      · subst heq
        have h1 : p' <+: k' :=
          ih k' a (fun x hx => hff x (by simp [hx])) (fun x hx => hk x (by simp [hx])) hrest
        exact List.cons_prefix_cons.mpr ⟨rfl, h1⟩

/-- Any physical key inside a window whose two bounds both carry the prefix
carries the prefix itself. -/
theorem prefix_of_window_mid : ∀ (p k a e : Bytes),
    lexLe (p ++ a) k = true → lexLt k (p ++ e) = true → p <+: k := by
  intro p
  induction p with
  | nil => intro k a e _ _; exact List.nil_prefix
  | cons b p' ih =>
    intro k a e hlo hhi
    cases k with
    | nil => rw [List.cons_append, lexLe_cons_nil] at hlo; cases hlo
    | cons c k' =>
      rw [List.cons_append] at hlo
      rw [List.cons_append] at hhi
      rcases lexLe_cons_iff.mp hlo with hlt | ⟨heq, hrest⟩
      · rcases lexLt_cons_iff.mp hhi with hlt2 | ⟨heq2, _⟩ <;> omega
      · subst heq
        rcases lexLt_cons_iff.mp hhi with hlt2 | ⟨_, hrest2⟩
        · omega
        · exact List.cons_prefix_cons.mpr ⟨rfl, ih k' a e hrest hrest2⟩

/-- Any physical key below the prefix incremented in its last byte and above
the prefix glued to a logical lower bound carries the prefix. -/
theorem prefix_of_window_bump : ∀ (p : Bytes), p ≠ [] → ∀ (k a : Bytes),
    lexLe (p ++ a) k = true →
    lexLt k (p.dropLast ++ [p.getLast?.getD 0 + 1]) = true → p <+: k := by
  intro p
  induction p with
  | nil => intro h; exact absurd rfl h
  | cons b p' ih =>
    intro _ k a hlo hhi
    cases k with
    | nil => rw [List.cons_append, lexLe_cons_nil] at hlo; cases hlo
    | cons c k' =>
      rw [List.cons_append] at hlo
      cases p' with
      | nil =>
        simp only [List.dropLast_single, List.nil_append, List.getLast?_singleton,
          Option.getD_some] at hhi
        rcases lexLe_cons_iff.mp hlo with hlt | ⟨heq, _⟩
        · rcases lexLt_cons_iff.mp hhi with hlt2 | ⟨heq2, hfalse⟩
          · omega
          · rw [lexLt_nil_right] at hfalse; cases hfalse
        · subst heq
          exact List.cons_prefix_cons.mpr ⟨rfl, List.nil_prefix⟩
      | cons b2 p'' =>
        have hdl : (b :: b2 :: p'').dropLast = b :: (b2 :: p'').dropLast := rfl
        have hgl : (b :: b2 :: p'').getLast? = (b2 :: p'').getLast? := by
          simp [List.getLast?_cons_cons]
        rw [hdl, hgl, List.cons_append] at hhi
        rcases lexLe_cons_iff.mp hlo with hlt | ⟨heq, hrest⟩
        · rcases lexLt_cons_iff.mp hhi with hlt2 | ⟨heq2, _⟩ <;> omega
        · subst heq
          rcases lexLt_cons_iff.mp hhi with hlt2 | ⟨_, hrest2⟩
          · omega
          · exact List.cons_prefix_cons.mpr
              ⟨rfl, ih (by simp) k' a hrest hrest2⟩

/-- Membership in the translated physical window forces the physical key to
carry the namespace prefix, for genuine byte keys. -/
theorem prefix_of_inRange {p k : Bytes} (a : Bytes) (endB : Option Bytes)
    (hk : allBytes k)
    (h : inRange (some (p ++ a)) (physEnd p endB) k = true) : p <+: k := by
  have hsplit := h
  simp only [inRange, Bool.and_eq_true] at hsplit
  obtain ⟨hlo, hhi⟩ := hsplit
  cases endB with
  | some e =>
    exact prefix_of_window_mid p k a e hlo hhi
  | none =>
    simp only [physEnd, namespaceUpperBound] at hhi
    by_cases hff : (p.all fun b => b == 255) = true
    · refine prefix_of_window_ff p k a ?_ hk hlo
      intro b hb
      have := List.all_eq_true.mp hff b hb
      simpa using this
    · have hne : p ≠ [] := by
        intro hnil
        subst hnil
        simp at hff
      rw [if_neg hff] at hhi
      exact prefix_of_window_bump p hne k a hlo hhi

end WindowLemmas

section StoreLemmas

theorem flatGet_flatSet (s : Store) (k v : Bytes) :
    flatGet (flatSet s k v) k = some v := by
  induction s with
  | nil => simp [flatSet, flatGet]
  | cons kv rest ih =>
    simp only [flatSet]
    by_cases h1 : lexLt k kv.1 = true
    · rw [if_pos h1]
      simp [flatGet]
    · rw [if_neg h1]
      by_cases h2 : kv.1 = k
      · rw [if_pos h2]
        simp [flatGet]
      · rw [if_neg h2]
        simp only [flatGet]
        rw [if_neg h2]
        exact ih

theorem flatGet_flatSet_ne (s : Store) {k k' : Bytes} (h : k ≠ k') (v : Bytes) :
    flatGet (flatSet s k' v) k = flatGet s k := by
  have h' : ¬ (k' = k) := fun hc => h hc.symm
  induction s with
  | nil =>
    simp only [flatSet, flatGet]
    rw [if_neg h']
  | cons kv rest ih =>
    simp only [flatSet]
    by_cases h1 : lexLt k' kv.1 = true
    · rw [if_pos h1]
      simp only [flatGet]
      rw [if_neg h']
    · rw [if_neg h1]
      by_cases h2 : kv.1 = k'
      · rw [if_pos h2]
        have hkk : ¬ (kv.1 = k) := by rw [h2]; exact h'
        simp only [flatGet]
        rw [if_neg h', if_neg hkk]
      · rw [if_neg h2]
        simp only [flatGet]
        by_cases h3 : kv.1 = k
        · rw [if_pos h3, if_pos h3]
        · rw [if_neg h3, if_neg h3]
          exact ih

theorem flatGet_flatRemove_ne (s : Store) {k k' : Bytes} (h : k ≠ k') :
    flatGet (flatRemove s k') k = flatGet s k := by
  induction s with
  | nil => rfl
  | cons kv rest ih =>
    simp only [flatRemove, List.filter_cons] at ih ⊢
    by_cases h2 : kv.1 = k'
    · have hkk : ¬ (kv.1 = k) := by rw [h2]; exact fun hc => h hc.symm
      simp only [h2, bne_self_eq_false, Bool.false_eq_true, if_false]
      rw [ih]
      conv_rhs => simp only [flatGet]
      rw [if_neg hkk]
    · have hb : (kv.1 != k') = true := bne_iff_ne.mpr h2
      simp only [hb, if_true]
      simp only [flatGet]
      by_cases h3 : kv.1 = k
      · rw [if_pos h3, if_pos h3]
      · rw [if_neg h3, if_neg h3]
        exact ih

theorem filter_flatSet_of_not_pass (s : Store) (k' v : Bytes)
    (Q : Bytes × Bytes → Bool) (hQ : ∀ val, Q (k', val) = false) :
    (flatSet s k' v).filter Q = s.filter Q := by
  induction s with
  | nil => simp [flatSet, List.filter_cons, hQ]
  | cons kv rest ih =>
    simp only [flatSet]
    by_cases h1 : lexLt k' kv.1 = true
    · rw [if_pos h1]
      rw [List.filter_cons, hQ v]
      simp
    · rw [if_neg h1]
      by_cases h2 : kv.1 = k'
      · have hkv : kv = (k', kv.2) := by rw [← h2]
        rw [if_pos h2, List.filter_cons, List.filter_cons, hQ v]
        rw [hkv, hQ kv.2]
        simp
      · rw [if_neg h2, List.filter_cons, List.filter_cons, ih]

theorem filter_flatRemove (s : Store) (k' : Bytes)
    (Q : Bytes × Bytes → Bool) (hQ : ∀ val, Q (k', val) = false) :
    (flatRemove s k').filter Q = s.filter Q := by
  induction s with
  | nil => simp [flatRemove]
  | cons kv rest ih =>
    simp only [flatRemove, List.filter_cons] at ih ⊢
    by_cases h2 : kv.1 = k'
    · have hkv : kv = (k', kv.2) := by rw [← h2]
      simp only [h2, bne_self_eq_false, Bool.false_eq_true, if_false]
      rw [ih]
      rw [hkv, hQ kv.2]
      simp
    · have hb : (kv.1 != k') = true := bne_iff_ne.mpr h2
      simp only [hb, if_true, List.filter_cons]
      by_cases h3 : Q kv = true
      · rw [if_pos h3, if_pos h3, ih]
      · rw [if_neg h3, if_neg h3, ih]

theorem validStore_flatSet {s : Store} (hs : validStore s) {k : Bytes}
    (hk : allBytes k) (v : Bytes) : validStore (flatSet s k v) := by
  induction s with
  | nil =>
    intro kv hkv
    simp only [flatSet, List.mem_singleton] at hkv
    subst hkv
    exact hk
  | cons kv0 rest ih =>
    have hs0 : allBytes kv0.1 := hs kv0 (by simp)
    have hsrest : validStore rest := fun x hx => hs x (by simp [hx])
    intro kv hkv
    simp only [flatSet] at hkv
    by_cases h1 : lexLt k kv0.1 = true
    · rw [if_pos h1] at hkv
      simp only [List.mem_cons] at hkv
      rcases hkv with rfl | rfl | hkv
      · exact hk
      · exact hs0
      · exact hsrest kv hkv
    · rw [if_neg h1] at hkv
      by_cases h2 : kv0.1 = k
      · rw [if_pos h2] at hkv
        simp only [List.mem_cons] at hkv
        rcases hkv with rfl | hkv
        · exact hk
        · exact hsrest kv hkv
      · rw [if_neg h2] at hkv
        simp only [List.mem_cons] at hkv
        rcases hkv with rfl | hkv
        · exact hs0
        · exact ih hsrest kv hkv

theorem validStore_flatRemove {s : Store} (hs : validStore s) (k : Bytes) :
    validStore (flatRemove s k) := by
  intro kv hkv
  exact hs kv (List.mem_of_mem_filter hkv)

end StoreLemmas

section PrefixLemmas

theorem append_prefix_append {x a b : Bytes} : (x ++ a) <+: (x ++ b) ↔ a <+: b := by
  constructor
  · rintro ⟨t, ht⟩
    rw [List.append_assoc] at ht
    exact ⟨t, List.append_cancel_left ht⟩
  · rintro ⟨t, ht⟩
    exact ⟨t, by rw [List.append_assoc, ht]⟩

theorem not_prefix_of_getElem_ne {x y : Bytes} {i : Nat} {va vb : Nat}
    (hx : x[i]? = some va) (hy : y[i]? = some vb) (hne : va ≠ vb) : ¬ x <+: y := by
  rintro ⟨t, rfl⟩
  have hi : i < x.length := by
    by_contra hge
    push_neg at hge
    rw [List.getElem?_eq_none hge] at hx
    cases hx
  rw [List.getElem?_append_left hi, hx] at hy
  exact hne (Option.some.inj hy)

theorem lexLt_self_append_bump (p t : Bytes) (hne : p ≠ []) :
    lexLt (p ++ t) (p.dropLast ++ [p.getLast?.getD 0 + 1]) = true := by
  obtain ⟨q, b, rfl⟩ : ∃ q b, p = q ++ [b] :=
    ⟨p.dropLast, p.getLast hne, (List.dropLast_append_getLast hne).symm⟩
  rw [List.dropLast_concat]
  have hb : ((q ++ [b]).getLast?).getD 0 = b := by simp
  rw [hb, List.append_assoc, lexLt_append_left]
  exact lexLt_cons_iff.mpr (Or.inl (Nat.lt_succ_self b))

end PrefixLemmas

section CodecLemmas

theorem toLengthPrefixed_eq {ns p : Bytes} (h : toLengthPrefixed ns = some p) :
    ns.length ≤ 65535 ∧ p = [ns.length / 256, ns.length % 256] ++ ns := by
  simp only [toLengthPrefixed, encodeLength] at h
  by_cases hl : 65535 < ns.length
  · rw [if_pos hl] at h
    simp at h
  · rw [if_neg hl] at h
    rw [Option.map_some'] at h
    exact ⟨by omega, (Option.some.inj h).symm⟩

theorem toLengthPrefixed_of_le {ns : Bytes} (h : ns.length ≤ 65535) :
    toLengthPrefixed ns = some ([ns.length / 256, ns.length % 256] ++ ns) := by
  simp only [toLengthPrefixed, encodeLength, if_neg (by omega : ¬ 65535 < ns.length),
    Option.map_some']

theorem toLengthPrefixedNested_cons {ns : Bytes} {rest : List Bytes} {p : Bytes}
    (h : toLengthPrefixedNested (ns :: rest) = some p) :
    ∃ h1 q, toLengthPrefixed ns = some h1 ∧ toLengthPrefixedNested rest = some q ∧
      p = h1 ++ q := by
  simp only [toLengthPrefixedNested] at h
  cases he : toLengthPrefixed ns with
  | none => rw [he] at h; cases h
  | some h1 =>
    cases hr : toLengthPrefixedNested rest with
    | none => rw [he, hr] at h; cases h
    | some q =>
      rw [he, hr] at h
      exact ⟨h1, q, rfl, rfl, (Option.some.inj h).symm⟩

theorem allBytes_toLengthPrefixed {ns p : Bytes} (h : toLengthPrefixed ns = some p)
    (hns : allBytes ns) : allBytes p := by
  obtain ⟨hl, rfl⟩ := toLengthPrefixed_eq h
  intro b hb
  simp only [List.cons_append, List.nil_append, List.mem_cons] at hb
  rcases hb with rfl | rfl | hb
  · omega
  · omega
  · exact hns b hb

end CodecLemmas

section RangeLemmas

theorem bool_eq_of_iff {x y : Bool} (h : x = true ↔ y = true) : x = y := by
  cases x <;> cases y <;> simp_all

theorem bump_append {p1 p2 : Bytes} (hne2 : p2 ≠ []) :
    (p1 ++ p2).dropLast ++ [(p1 ++ p2).getLast?.getD 0 + 1] =
      p1 ++ (p2.dropLast ++ [p2.getLast?.getD 0 + 1]) := by
  have hemp : p2.isEmpty = false := by
    cases p2 with
    | nil => exact absurd rfl hne2
    | cons a l => rfl
  have hdl : (p1 ++ p2).dropLast = p1 ++ p2.dropLast := by
    rw [List.dropLast_append, hemp]
    simp
  have hgl : (p1 ++ p2).getLast? = p2.getLast? := by
    obtain ⟨x, hx⟩ : ∃ x, p2.getLast? = some x :=
      ⟨p2.getLast hne2, List.getLast?_eq_getLast p2 hne2⟩
    rw [List.getLast?_append, hx, Option.or_some]
  rw [hdl, hgl, List.append_assoc]

theorem namespaceUpperBound_append {p1 p2 : Bytes}
    (h : ¬ (p2.all fun b => b == 255) = true) :
    namespaceUpperBound (p1 ++ p2) =
      some (p1 ++ (p2.dropLast ++ [p2.getLast?.getD 0 + 1])) := by
  have hne2 : p2 ≠ [] := by
    intro hnil
    subst hnil
    simp at h
  have hnf : ¬ ((p1 ++ p2).all fun b => b == 255) = true := by
    rw [List.all_append]
    intro hc
    rw [Bool.and_eq_true] at hc
    exact h hc.2
  rw [namespaceUpperBound, if_neg hnf, bump_append hne2]

theorem namespaceUpperBound_append_ff {p1 p2 : Bytes}
    (h1 : (p1.all fun b => b == 255) = true) (h2 : (p2.all fun b => b == 255) = true) :
    namespaceUpperBound (p1 ++ p2) = none := by
  rw [namespaceUpperBound, if_pos (by rw [List.all_append, h1, h2]; rfl)]

/-- Characterization of membership in the translated physical window: a
genuine byte key lies inside it exactly when it extends the prefix with a
logical suffix inside the logical window. -/
theorem inRange_physEnd_iff {p k : Bytes} (a : Bytes) (endB : Option Bytes)
    (hk : allBytes k) :
    inRange (some (p ++ a)) (physEnd p endB) k = true ↔
      ∃ t, k = p ++ t ∧ lexLe a t = true ∧
        (endB = none ∨ ∃ e, endB = some e ∧ lexLt t e = true) := by
  constructor
  · intro h
    obtain ⟨t, rfl⟩ := prefix_of_inRange a endB hk h
    simp only [inRange, Bool.and_eq_true] at h
    refine ⟨t, rfl, ?_, ?_⟩
    · have := h.1
      rwa [lexLe_append_left] at this
    · cases endB with
      | none => exact Or.inl rfl
      | some e =>
        refine Or.inr ⟨e, rfl, ?_⟩
        have := h.2
        simp only [physEnd] at this
        rwa [lexLt_append_left] at this
  · rintro ⟨t, rfl, hlo, hup⟩
    simp only [inRange, Bool.and_eq_true]
    refine ⟨by rwa [lexLe_append_left], ?_⟩
    cases endB with
    | some e =>
      rcases hup with hnone | ⟨e2, he2, hlt⟩
      · cases hnone
      · simp only [physEnd]
        rw [lexLt_append_left]
        cases he2
        exact hlt
    | none =>
      simp only [physEnd, namespaceUpperBound]
      by_cases hff : (p.all fun b => b == 255) = true
      · rw [if_pos hff]
      · rw [if_neg hff]
        have hne : p ≠ [] := by
          intro hnil
          subst hnil
          simp at hff
        exact lexLt_self_append_bump p t hne

/-- Every entry yielded by a prefixed range scan over a store of genuine byte
keys is a stored entry with the prefix stripped from its physical key. -/
theorem rangeWithPrefix_mem {s : Store} (hs : validStore s) {p : Bytes}
    {start endB : Option Bytes} {ord : Order} {kv : Bytes × Bytes}
    (h : kv ∈ rangeWithPrefix flatRange s p start endB ord) :
    (p ++ kv.1, kv.2) ∈ s := by
  simp only [rangeWithPrefix] at h
  obtain ⟨kv0, hkv0, hmap⟩ := List.mem_map.mp h
  have hmem : kv0 ∈ s.filter
      (fun x => inRange (some (p ++ start.getD [])) (physEnd p endB) x.1) := by
    cases ord with
    | Ascending => exact hkv0
    | Descending => exact List.mem_reverse.mp hkv0
  have hin := List.mem_filter.mp hmem
  obtain ⟨t, ht⟩ := prefix_of_inRange (start.getD []) endB (hs kv0 hin.1) hin.2
  obtain ⟨k1, v1⟩ := kv0
  simp only at ht
  subst ht
  simp only [List.drop_left] at hmap
  rw [← hmap]
  exact hin.1

/-- The physical windows of the nested and of the single-hop multi-level
translation agree on genuine byte keys, bound case by bound case. -/
theorem inRange_nested_eq (p1 p2 a : Bytes) (endB : Option Bytes) (k : Bytes)
    (hk : allBytes k) :
    inRange (some (p1 ++ (p2 ++ a))) (physEnd p1 (physEnd p2 endB)) k =
    inRange (some ((p1 ++ p2) ++ a)) (physEnd (p1 ++ p2) endB) k := by
  rw [List.append_assoc]
  cases endB with
  | some e =>
    simp only [physEnd]
    rw [List.append_assoc]
  | none =>
    simp only [physEnd]
    by_cases hff2 : (p2.all fun b => b == 255) = true
    · rcases List.eq_nil_or_concat p2 with rfl | ⟨q, b, hqb⟩
      · rw [show namespaceUpperBound ([] : Bytes) = none from rfl]
        simp only [physEnd, List.append_nil]
      · rw [List.concat_eq_append] at hqb
        subst hqb
        have hne2 : q ++ [b] ≠ ([] : Bytes) := by simp
        rw [show namespaceUpperBound (q ++ [b]) = none from by
          rw [namespaceUpperBound, if_pos hff2]]
        simp only [physEnd]
        by_cases hff1 : (p1.all fun b => b == 255) = true
        · rw [show namespaceUpperBound p1 = none from by
            rw [namespaceUpperBound, if_pos hff1]]
          rw [namespaceUpperBound_append_ff hff1 hff2]
        · have hne1 : p1 ≠ [] := by
            intro hnil
            subst hnil
            simp at hff1
          rw [show namespaceUpperBound p1 =
              some (p1.dropLast ++ [p1.getLast?.getD 0 + 1]) from by
            rw [namespaceUpperBound, if_neg hff1]]
          rw [show namespaceUpperBound (p1 ++ (q ++ [b])) =
              some (p1 ++ ((q ++ [b]).dropLast ++ [(q ++ [b]).getLast?.getD 0 + 1])) from by
            rw [namespaceUpperBound, if_neg (by
              rw [List.all_append]
              intro hc
              rw [Bool.and_eq_true] at hc
              exact absurd hc.1 hff1), bump_append hne2]]
          simp only [inRange]
          by_cases hlo : lexLe (p1 ++ ((q ++ [b]) ++ a)) k = true
          · have hiff : lexLt k (p1.dropLast ++ [p1.getLast?.getD 0 + 1]) = true ↔
                lexLt k (p1 ++ ((q ++ [b]).dropLast ++
                  [(q ++ [b]).getLast?.getD 0 + 1])) = true := by
              constructor
              · intro hhi
                obtain ⟨t, rfl⟩ := prefix_of_window_bump p1 hne1 k ((q ++ [b]) ++ a) hlo hhi
                have hkt : allBytes t := fun x hx => hk x (by simp [hx])
                have hlot : lexLe ((q ++ [b]) ++ a) t = true := by
                  have := hlo
                  rwa [lexLe_append_left] at this
                have hp2 : (q ++ [b]) <+: t := by
                  refine prefix_of_window_ff (q ++ [b]) t a ?_ hkt hlot
                  intro x hx
                  have := List.all_eq_true.mp hff2 x hx
                  simpa using this
                obtain ⟨r, rfl⟩ := hp2
                rw [← List.append_assoc, List.append_assoc, lexLt_append_left]
                exact lexLt_self_append_bump (q ++ [b]) r hne2
              · intro hhi
                have hlo2 : lexLe ((p1 ++ (q ++ [b])) ++ a) k = true := by
                  rwa [List.append_assoc]
                have hp12 : (p1 ++ (q ++ [b])) <+: k := by
                  refine prefix_of_window_bump (p1 ++ (q ++ [b])) (by simp) k a hlo2 ?_
                  rw [bump_append hne2]
                  exact hhi
                obtain ⟨r, rfl⟩ := hp12
                rw [List.append_assoc]
                exact lexLt_self_append_bump p1 ((q ++ [b]) ++ r) hne1
            rw [hlo]
            simp only [Bool.true_and]
            exact bool_eq_of_iff hiff
          · have hlo' : lexLe (p1 ++ ((q ++ [b]) ++ a)) k = false :=
              Bool.eq_false_iff.mpr hlo
            rw [hlo']
            simp
    · rw [show namespaceUpperBound p2 = some (p2.dropLast ++ [p2.getLast?.getD 0 + 1]) from by
        rw [namespaceUpperBound, if_neg hff2]]
      simp only [physEnd]
      rw [namespaceUpperBound_append hff2]

end RangeLemmas

section EncodingLemmas

theorem not_prefix_of_getElem?_ne {x y : Bytes} (i : Nat)
    (hix : i < x.length) (hne : x[i]? ≠ y[i]?) : ¬ x <+: y := by
  rintro ⟨t, rfl⟩
  rw [List.getElem?_append_left hix] at hne
  exact hne rfl

theorem getElem?_header (a b : Nat) (s q : Bytes) (i : Nat) (h : i < s.length) :
    ((a :: b :: s) ++ q)[2 + i]? = s[i]? := by
  rw [List.getElem?_append_left (by simp; omega)]
  rw [show 2 + i = i + 1 + 1 from by omega]
  rw [List.getElem?_cons_succ, List.getElem?_cons_succ]

theorem getElem?_header0 (a b : Nat) (s q : Bytes) :
    ((a :: b :: s) ++ q)[0]? = some a := by
  simp

theorem getElem?_header1 (a b : Nat) (s q : Bytes) :
    ((a :: b :: s) ++ q)[1]? = some b := by
  rw [List.cons_append]
  rw [show (1 : Nat) = 0 + 1 from rfl]
  rw [List.getElem?_cons_succ, List.cons_append, List.getElem?_cons_zero]

/-- Encodings of namespace-lists of which neither extends the other
segmentwise are never prefixes of one another: the 2-byte length headers
make every concatenation of segments uniquely decodable. -/
theorem nested_encode_not_prefix : ∀ (N1 : List Bytes) (N2 : List Bytes) (p1 p2 : Bytes),
    toLengthPrefixedNested N1 = some p1 → toLengthPrefixedNested N2 = some p2 →
    ¬ N1 <+: N2 → ¬ N2 <+: N1 → ¬ p1 <+: p2 ∧ ¬ p2 <+: p1 := by
  intro N1
  induction N1 with
  | nil => intro N2 p1 p2 _ _ h12 _; exact absurd List.nil_prefix h12
  | cons s1 r1 ih =>
    intro N2 p1 p2 h1 h2 h12 h21
    cases N2 with
    | nil => exact absurd List.nil_prefix h21
    | cons s2 r2 =>
      obtain ⟨h1v, q1, he1, hr1, rfl⟩ := toLengthPrefixedNested_cons h1
      obtain ⟨h2v, q2, he2, hr2, rfl⟩ := toLengthPrefixedNested_cons h2
      obtain ⟨hl1, rfl⟩ := toLengthPrefixed_eq he1
      obtain ⟨hl2, rfl⟩ := toLengthPrefixed_eq he2
      by_cases hs : s1 = s2
      · subst hs
        have hr12 : ¬ r1 <+: r2 := fun hc => h12 (List.cons_prefix_cons.mpr ⟨rfl, hc⟩)
        have hr21 : ¬ r2 <+: r1 := fun hc => h21 (List.cons_prefix_cons.mpr ⟨rfl, hc⟩)
        obtain ⟨hq1, hq2⟩ := ih r2 q1 q2 hr1 hr2 hr12 hr21
        exact ⟨fun hc => hq1 (append_prefix_append.mp hc),
               fun hc => hq2 (append_prefix_append.mp hc)⟩
      · by_cases hl : s1.length = s2.length
        · have hex : ∃ i : Nat, s1[i]? ≠ s2[i]? := by
            by_contra hall
            push_neg at hall
            exact hs (List.ext_getElem? hall)
          obtain ⟨i, hi⟩ := hex
          have hilt : i < s1.length := by
            by_contra hge
            push_neg at hge
            rw [List.getElem?_eq_none hge, List.getElem?_eq_none (by omega)] at hi
            exact hi rfl
          have hilt2 : i < s2.length := by omega
          have hv1 : (([s1.length / 256, s1.length % 256] ++ s1) ++ q1)[2 + i]? = s1[i]? :=
            getElem?_header (s1.length / 256) (s1.length % 256) s1 q1 i hilt
          have hv2 : (([s2.length / 256, s2.length % 256] ++ s2) ++ q2)[2 + i]? = s2[i]? :=
            getElem?_header (s2.length / 256) (s2.length % 256) s2 q2 i hilt2
          constructor
          · refine not_prefix_of_getElem?_ne (2 + i)
              (by simp only [List.length_append, List.length_cons]; omega) ?_
            rw [hv1, hv2]
            exact hi
          · refine not_prefix_of_getElem?_ne (2 + i)
              (by simp only [List.length_append, List.length_cons]; omega) ?_
            rw [hv1, hv2]
            exact fun hc => hi hc.symm
        · have hd : s1.length / 256 ≠ s2.length / 256 ∨ s1.length % 256 ≠ s2.length % 256 := by
            by_contra hc
            push_neg at hc
            exact hl (by omega)
          rcases hd with hd | hd
          · have hv1 : (([s1.length / 256, s1.length % 256] ++ s1) ++ q1)[0]? =
                some (s1.length / 256) := getElem?_header0 _ _ s1 q1
            have hv2 : (([s2.length / 256, s2.length % 256] ++ s2) ++ q2)[0]? =
                some (s2.length / 256) := getElem?_header0 _ _ s2 q2
            constructor
            · refine not_prefix_of_getElem?_ne 0
                (by simp only [List.length_append, List.length_cons]; omega) ?_
              rw [hv1, hv2]
              intro hc
              exact hd (Option.some.inj hc)
            · refine not_prefix_of_getElem?_ne 0
                (by simp only [List.length_append, List.length_cons]; omega) ?_
              rw [hv1, hv2]
              intro hc
              exact hd (Option.some.inj hc).symm
          · have hv1 : (([s1.length / 256, s1.length % 256] ++ s1) ++ q1)[1]? =
                some (s1.length % 256) := getElem?_header1 _ _ s1 q1
            have hv2 : (([s2.length / 256, s2.length % 256] ++ s2) ++ q2)[1]? =
                some (s2.length % 256) := getElem?_header1 _ _ s2 q2
            constructor
            · refine not_prefix_of_getElem?_ne 1
                (by simp only [List.length_append, List.length_cons]; omega) ?_
              rw [hv1, hv2]
              intro hc
              exact hd (Option.some.inj hc)
            · refine not_prefix_of_getElem?_ne 1
                (by simp only [List.length_append, List.length_cons]; omega) ?_
              rw [hv1, hv2]
              intro hc
              exact hd (Option.some.inj hc).symm

/-- The nested codec is injective: distinct namespace-lists always receive
distinct encodings. -/
theorem nested_encode_inj : ∀ (N1 N2 : List Bytes) (p : Bytes),
    toLengthPrefixedNested N1 = some p → toLengthPrefixedNested N2 = some p →
    N1 = N2 := by
  intro N1
  induction N1 with
  | nil =>
    intro N2 p h1 h2
    cases N2 with
    | nil => rfl
    | cons s2 r2 =>
      have hp : p = [] := by
        simp only [toLengthPrefixedNested] at h1
        exact (Option.some.inj h1).symm
      subst hp
      obtain ⟨h2v, q2, he2, hr2, hcat⟩ := toLengthPrefixedNested_cons h2
      obtain ⟨hl2, rfl⟩ := toLengthPrefixed_eq he2
      exact absurd hcat.symm (by simp)
  | cons s1 r1 ih =>
    intro N2 p h1 h2
    cases N2 with
    | nil =>
      have hp : p = [] := by
        simp only [toLengthPrefixedNested] at h2
        exact (Option.some.inj h2).symm
      subst hp
      obtain ⟨h1v, q1, he1, hr1, hcat⟩ := toLengthPrefixedNested_cons h1
      obtain ⟨hl1, rfl⟩ := toLengthPrefixed_eq he1
      exact absurd hcat.symm (by simp)
    | cons s2 r2 =>
      obtain ⟨h1v, q1, he1, hr1, rfl⟩ := toLengthPrefixedNested_cons h1
      obtain ⟨h2v, q2, he2, hr2, hcat⟩ := toLengthPrefixedNested_cons h2
      obtain ⟨hl1, rfl⟩ := toLengthPrefixed_eq he1
      obtain ⟨hl2, rfl⟩ := toLengthPrefixed_eq he2
      rw [List.append_assoc, List.append_assoc] at hcat
      simp only [List.cons_append, List.nil_append, List.cons.injEq] at hcat
      obtain ⟨hd, hm, htl⟩ := hcat
      have hlen : s1.length = s2.length := by omega
      obtain ⟨hs, hq⟩ := List.append_inj htl hlen
      subst hs
      have hr : r1 = r2 := ih r2 q1 hr1 (by rw [hq]; exact hr2)
      rw [hr]

end EncodingLemmas

section NestingLemmas

/-- Keys written by set operations must be genuine byte strings for the
observational-equivalence statement; the other operations are
unconstrained. -/
def opValid : StorageOp → Prop
  | StorageOp.set k _ => allBytes k
  | StorageOp.get _ => True
  | StorageOp.remove _ => True
  | StorageOp.range _ _ _ => True

instance (op : StorageOp) : Decidable (opValid op) :=
  match op with
  | StorageOp.set k _ => inferInstanceAs (Decidable (allBytes k))
  | StorageOp.get _ => inferInstanceAs (Decidable True)
  | StorageOp.remove _ => inferInstanceAs (Decidable True)
  | StorageOp.range _ _ _ => inferInstanceAs (Decidable True)

theorem toOps_get {σ : Type} (v : PrefixedStorage σ) (s : σ) (k : Bytes) :
    v.toOps.get s k = v.get s k := rfl

theorem toOps_set {σ : Type} (v : PrefixedStorage σ) (s : σ) (k val : Bytes) :
    v.toOps.set s k val = v.set s k val := rfl

theorem toOps_remove {σ : Type} (v : PrefixedStorage σ) (s : σ) (k : Bytes) :
    v.toOps.remove s k = v.remove s k := rfl

theorem toOps_range {σ : Type} (v : PrefixedStorage σ) (s : σ)
    (a b : Option Bytes) (o : Order) :
    v.toOps.range s a b o = v.range s a b o := rfl

theorem get_nested_eq (p1 p2 : Bytes) (s : Store) (k : Bytes) :
    (PrefixedStorage.mk (PrefixedStorage.toOps (PrefixedStorage.mk flatOps p1)) p2).get s k =
      (PrefixedStorage.mk flatOps (p1 ++ p2)).get s k := by
  show flatGet s (p1 ++ (p2 ++ k)) = flatGet s ((p1 ++ p2) ++ k)
  rw [List.append_assoc]

theorem set_nested_eq (p1 p2 : Bytes) (s : Store) (k v : Bytes) :
    (PrefixedStorage.mk (PrefixedStorage.toOps (PrefixedStorage.mk flatOps p1)) p2).set s k v =
      (PrefixedStorage.mk flatOps (p1 ++ p2)).set s k v := by
  show flatSet s (p1 ++ (p2 ++ k)) v = flatSet s ((p1 ++ p2) ++ k) v
  rw [List.append_assoc]

theorem remove_nested_eq (p1 p2 : Bytes) (s : Store) (k : Bytes) :
    (PrefixedStorage.mk (PrefixedStorage.toOps (PrefixedStorage.mk flatOps p1)) p2).remove s k =
      (PrefixedStorage.mk flatOps (p1 ++ p2)).remove s k := by
  show flatRemove s (p1 ++ (p2 ++ k)) = flatRemove s ((p1 ++ p2) ++ k)
  rw [List.append_assoc]

theorem range_nested_eq (p1 p2 : Bytes) (s : Store) (hs : validStore s)
    (start endB : Option Bytes) (ord : Order) :
    (PrefixedStorage.mk (PrefixedStorage.toOps (PrefixedStorage.mk flatOps p1)) p2).range
      s start endB ord =
      (PrefixedStorage.mk flatOps (p1 ++ p2)).range s start endB ord := by
  show ((flatRange s (some (p1 ++ (p2 ++ start.getD [])))
      (physEnd p1 (physEnd p2 endB)) ord).map
        (fun kv => (kv.1.drop p1.length, kv.2))).map
        (fun kv => (kv.1.drop p2.length, kv.2)) =
    (flatRange s (some ((p1 ++ p2) ++ start.getD [])) (physEnd (p1 ++ p2) endB) ord).map
      (fun kv => (kv.1.drop (p1 ++ p2).length, kv.2))
  have hfil : s.filter (fun kv => inRange (some (p1 ++ (p2 ++ start.getD [])))
        (physEnd p1 (physEnd p2 endB)) kv.1)
      = s.filter (fun kv => inRange (some ((p1 ++ p2) ++ start.getD []))
        (physEnd (p1 ++ p2) endB) kv.1) :=
    List.filter_congr (fun kv hkv =>
      inRange_nested_eq p1 p2 (start.getD []) endB kv.1 (hs kv hkv))
  have hmap : ∀ l : List (Bytes × Bytes),
      (l.map (fun kv => (kv.1.drop p1.length, kv.2))).map
          (fun kv => (kv.1.drop p2.length, kv.2))
        = l.map (fun kv => (kv.1.drop (p1 ++ p2).length, kv.2)) := by
    intro l
    rw [List.map_map]
    congr 1
    funext kv
    simp [Function.comp, List.drop_drop, List.length_append]
  cases ord with
  | Ascending =>
    simp only [flatRange]
    rw [hmap, hfil]
  | Descending =>
    simp only [flatRange]
    rw [hmap, hfil]

theorem runOps_nested_eq (p1 p2 : Bytes) (hp : allBytes (p1 ++ p2)) :
    ∀ (ops : List StorageOp) (s : Store), validStore s → (∀ op ∈ ops, opValid op) →
    runOps (PrefixedStorage.toOps (PrefixedStorage.mk flatOps (p1 ++ p2))) s ops =
    runOps (PrefixedStorage.toOps (PrefixedStorage.mk
      (PrefixedStorage.toOps (PrefixedStorage.mk flatOps p1)) p2)) s ops := by
  intro ops
  induction ops with
  | nil => intro s _ _; rfl
  | cons op rest ih =>
    intro s hs hops
    have hop := hops op (by simp)
    have hrest : ∀ x ∈ rest, opValid x := fun x hx => hops x (by simp [hx])
    cases op with
    | get k =>
      simp only [runOps, applyOp, toOps_get]
      rw [get_nested_eq p1 p2 s k, ih s hs hrest]
    | set k v =>
      simp only [runOps, applyOp, toOps_set]
      rw [set_nested_eq p1 p2 s k v]
      have hvalid : validStore
          ((PrefixedStorage.mk flatOps (p1 ++ p2)).set s k v) := by
        show validStore (flatSet s ((p1 ++ p2) ++ k) v)
        refine validStore_flatSet hs ?_ v
        intro b hb
        rcases List.mem_append.mp hb with hb | hb
        · exact hp b hb
        · exact hop b hb
      rw [ih _ hvalid hrest]
    | remove k =>
      simp only [runOps, applyOp, toOps_remove]
      rw [remove_nested_eq p1 p2 s k]
      have hvalid : validStore
          ((PrefixedStorage.mk flatOps (p1 ++ p2)).remove s k) := by
        show validStore (flatRemove s ((p1 ++ p2) ++ k))
        exact validStore_flatRemove hs _
      rw [ih _ hvalid hrest]
    | range a b o =>
      simp only [runOps, applyOp, toOps_range]
      rw [range_nested_eq p1 p2 s hs a b o, ih s hs hrest]

end NestingLemmas

section CodecFormat

theorem toLengthPrefixedNested_flatten : ∀ (nss : List Bytes),
    (∀ ns ∈ nss, ns.length ≤ 65535) →
    toLengthPrefixedNested nss =
      some ((nss.map (fun ns => ns.length / 256 :: ns.length % 256 :: ns)).flatten) := by
  intro nss
  induction nss with
  | nil => intro _; rfl
  | cons ns rest ih =>
    intro hseg
    have h1 : toLengthPrefixed ns = some ([ns.length / 256, ns.length % 256] ++ ns) :=
      toLengthPrefixed_of_le (hseg ns (by simp))
    have h2 := ih (fun x hx => hseg x (by simp [hx]))
    simp only [toLengthPrefixedNested, h1, h2, List.map_cons, List.flatten_cons,
      List.cons_append, List.nil_append]

end CodecFormat

/-- C1, counterexample: the namespace-lists `["a"]` and `["a","b"]` are
distinct, yet the encoding of the first is a prefix of the encoding of the
second (nesting deliberately extends the prefix), so the unrestricted mutual
non-prefix property claimed for all distinct lists fails. -/
theorem encode_collision_counterexample :
    ([[97]] : List Bytes) ≠ [[97], [98]] ∧
    toLengthPrefixedNested [[97]] = some [0, 1, 97] ∧
    toLengthPrefixedNested [[97], [98]] = some [0, 1, 97, 0, 1, 98] ∧
    [0, 1, 97] <+: [0, 1, 97, 0, 1, 98] := by
  refine ⟨by decide, rfl, rfl, by decide⟩

/-- C1, amended: the encodings of distinct namespace-lists are always
distinct (the codec is injective); and whenever neither list extends the
other segmentwise, neither encoding is a prefix of the other and the two
encodings are unequal. -/
theorem encode_collision_freedom (N1 N2 : List Bytes) (p1 p2 : Bytes)
    (h1 : toLengthPrefixedNested N1 = some p1)
    (h2 : toLengthPrefixedNested N2 = some p2) :
    (N1 ≠ N2 → p1 ≠ p2) ∧
    (¬ N1 <+: N2 → ¬ N2 <+: N1 →
      ¬ p1 <+: p2 ∧ ¬ p2 <+: p1 ∧ p1 ≠ p2) := by
  constructor
  · intro hne hp
    subst hp
    exact hne (nested_encode_inj N1 N2 p1 h1 h2)
  · intro h12 h21
    obtain ⟨hnp1, hnp2⟩ := nested_encode_not_prefix N1 N2 p1 p2 h1 h2 h12 h21
    exact ⟨hnp1, hnp2, fun hp => hnp1 (hp ▸ ⟨[], List.append_nil p1⟩)⟩

/-- C1, witness: the amended statement applied to the concrete lists
`["a"]` and `["b"]`. -/
theorem encode_collision_freedom_witness :
    ¬ ([0, 1, 97] : Bytes) <+: [0, 1, 98] ∧
    ¬ ([0, 1, 98] : Bytes) <+: [0, 1, 97] ∧
    ([0, 1, 97] : Bytes) ≠ [0, 1, 98] :=
  (encode_collision_freedom [[97]] [[98]] [0, 1, 97] [0, 1, 98] rfl rfl).2
    (by decide) (by decide)

/-- C2: wire format: the computed prefix is the concatenation, in list
order, of the 2-byte big-endian length header followed by the raw bytes of
every segment, with no trailing separator; and every physical key a
prefixed view reads, writes or removes is that prefix followed immediately
by the caller's raw logical key bytes, with no further separator. -/
theorem wire_format (nss : List Bytes) (hseg : ∀ ns ∈ nss, ns.length ≤ 65535)
    (p : Bytes) (s : Store) (k val : Bytes) :
    toLengthPrefixedNested nss =
      some ((nss.map (fun ns => ns.length / 256 :: ns.length % 256 :: ns)).flatten) ∧
    (PrefixedStorage.mk flatOps p).get s k = flatGet s (p ++ k) ∧
    (PrefixedStorage.mk flatOps p).set s k val = flatSet s (p ++ k) val ∧
    (PrefixedStorage.mk flatOps p).remove s k = flatRemove s (p ++ k) :=
  ⟨toLengthPrefixedNested_flatten nss hseg, rfl, rfl, rfl⟩

/-- C2, witness: the wire format evaluated on the namespaces "foo", "bar"
and on a concrete physical read. -/
theorem wire_format_witness :
    toLengthPrefixedNested [[102, 111, 111], [98, 97, 114]] =
      some [0, 3, 102, 111, 111, 0, 3, 98, 97, 114] ∧
    (PrefixedStorage.mk flatOps [0, 1]).get [([0, 1, 5], [9])] [5] =
      flatGet [([0, 1, 5], [9])] ([0, 1] ++ [5]) :=
  ⟨((wire_format [[102, 111, 111], [98, 97, 114]] (by decide) [0, 1]
      [([0, 1, 5], [9])] [5] [9]).1).trans (by decide),
   (wire_format [[102, 111, 111], [98, 97, 114]] (by decide) [0, 1]
      [([0, 1, 5], [9])] [5] [9]).2.1⟩

/-- C3: when the caller gives no upper bound, the physical exclusive upper
bound is the prefix incremented by one in its last byte, or absent
altogether when the prefix consists entirely of 0xFF bytes; and every
yielded entry is a stored entry whose physical key carries the prefix,
returned with the prefix stripped, so callers observe logical keys only. -/
theorem range_unbounded_upper (s : Store) (hs : validStore s) (p : Bytes)
    (start : Option Bytes) (ord : Order) :
    (¬ (p.all fun b => b == 255) = true →
      rangeWithPrefix flatRange s p start none ord =
        (flatRange s (some (p ++ start.getD []))
          (some (p.dropLast ++ [p.getLast?.getD 0 + 1])) ord).map
            (fun kv => (kv.1.drop p.length, kv.2))) ∧
    ((p.all fun b => b == 255) = true →
      rangeWithPrefix flatRange s p start none ord =
        (flatRange s (some (p ++ start.getD [])) none ord).map
          (fun kv => (kv.1.drop p.length, kv.2))) ∧
    (∀ kv ∈ rangeWithPrefix flatRange s p start none ord, (p ++ kv.1, kv.2) ∈ s) := by
  refine ⟨?_, ?_, ?_⟩
  · intro h
    simp only [rangeWithPrefix, physEnd, namespaceUpperBound, if_neg h]
  · intro h
    simp only [rangeWithPrefix, physEnd, namespaceUpperBound, if_pos h]
  · intro kv hkv
    exact rangeWithPrefix_mem hs hkv

/-- C3, witness: the unbounded-above scan over the namespace prefix of "a"
applied to a one-entry store: the bound is the incremented prefix and the
yielded key is the stripped logical key. -/
theorem range_unbounded_upper_witness :
    rangeWithPrefix flatRange [([0, 1, 97, 5], [7])] [0, 1, 97] none none Order.Ascending =
      (flatRange [([0, 1, 97, 5], [7])]
        (some ([0, 1, 97] ++ (none : Option Bytes).getD []))
        (some (([0, 1, 97] : Bytes).dropLast ++ [([0, 1, 97] : Bytes).getLast?.getD 0 + 1]))
        Order.Ascending).map
          (fun kv => (kv.1.drop ([0, 1, 97] : Bytes).length, kv.2)) ∧
    rangeWithPrefix flatRange [([0, 1, 97, 5], [7])] [0, 1, 97] none none Order.Ascending =
      [([5], [7])] :=
  ⟨(range_unbounded_upper [([0, 1, 97, 5], [7])] (by decide) [0, 1, 97] none
      Order.Ascending).1 (by decide), by decide⟩

/-- C4: observational equivalence of multilevel and nested construction:
`multilevel` over `[n1, n2]` computes the concatenated prefix, and every
sequence of get, set, remove and range calls through the multilevel view
produces exactly the same observations and the same final store as through
the view built by nesting a single-level view for `n2` on top of a
single-level view for `n1` (stores and written keys being genuine byte
strings, as in the Rust code). -/
theorem multilevel_nesting_equivalence (n1 n2 p1 p2 : Bytes)
    (h1 : toLengthPrefixed n1 = some p1) (h2 : toLengthPrefixed n2 = some p2)
    (hb1 : allBytes n1) (hb2 : allBytes n2) :
    PrefixedStorage.multilevel flatOps [n1, n2] = some ⟨flatOps, p1 ++ p2⟩ ∧
    PrefixedStorage.new flatOps n1 = some ⟨flatOps, p1⟩ ∧
    PrefixedStorage.new (PrefixedStorage.toOps ⟨flatOps, p1⟩) n2 =
      some ⟨PrefixedStorage.toOps ⟨flatOps, p1⟩, p2⟩ ∧
    ∀ (ops : List StorageOp) (s : Store), validStore s → (∀ op ∈ ops, opValid op) →
      runOps (PrefixedStorage.toOps ⟨flatOps, p1 ++ p2⟩) s ops =
      runOps (PrefixedStorage.toOps
        ⟨PrefixedStorage.toOps ⟨flatOps, p1⟩, p2⟩) s ops := by
  refine ⟨?_, ?_, ?_, ?_⟩
  · simp only [PrefixedStorage.multilevel, toLengthPrefixedNested, h1, h2,
      Option.map_some', List.append_nil]
  · simp only [PrefixedStorage.new, h1, Option.map_some']
  · simp only [PrefixedStorage.new, h2, Option.map_some']
  · intro ops s hs hops
    have hp : allBytes (p1 ++ p2) := by
      intro b hb
      rcases List.mem_append.mp hb with hb | hb
      · exact allBytes_toLengthPrefixed h1 hb1 b hb
      · exact allBytes_toLengthPrefixed h2 hb2 b hb
    exact runOps_nested_eq p1 p2 hp ops s hs hops

/-- C4, witness: the equivalence run over the test scenario of
`prefixed_storage.rs`: namespaces "foo" and "bar", writing key "baz" and
then reading it back and scanning, starting from the empty store. -/
theorem multilevel_nesting_equivalence_witness :
    runOps (PrefixedStorage.toOps ⟨flatOps, [0, 3, 102, 111, 111] ++ [0, 3, 98, 97, 114]⟩)
      []
      [StorageOp.set [98, 97, 122] [119, 105, 110, 110, 101, 114],
       StorageOp.get [98, 97, 122],
       StorageOp.range none none Order.Ascending] =
    runOps (PrefixedStorage.toOps
      ⟨PrefixedStorage.toOps ⟨flatOps, [0, 3, 102, 111, 111]⟩, [0, 3, 98, 97, 114]⟩)
      []
      [StorageOp.set [98, 97, 122] [119, 105, 110, 110, 101, 114],
       StorageOp.get [98, 97, 122],
       StorageOp.range none none Order.Ascending] :=
  (multilevel_nesting_equivalence [102, 111, 111] [98, 97, 114]
      [0, 3, 102, 111, 111] [0, 3, 98, 97, 114] rfl rfl (by decide) (by decide)).2.2.2
    [StorageOp.set [98, 97, 122] [119, 105, 110, 110, 101, 114],
     StorageOp.get [98, 97, 122],
     StorageOp.range none none Order.Ascending]
    [] (by decide) (by decide)

/-- C5: a descending range scan yields exactly the reverse of the ascending
scan over the same bounds, with identical bound semantics; in particular
both scans yield the same set of logical entries. -/
theorem range_symmetry (s : Store) (p : Bytes) (start endB : Option Bytes) :
    rangeWithPrefix flatRange s p start endB Order.Descending =
      (rangeWithPrefix flatRange s p start endB Order.Ascending).reverse ∧
    ∀ kv : Bytes × Bytes,
      kv ∈ rangeWithPrefix flatRange s p start endB Order.Descending ↔
      kv ∈ rangeWithPrefix flatRange s p start endB Order.Ascending := by
  have h : rangeWithPrefix flatRange s p start endB Order.Descending =
      (rangeWithPrefix flatRange s p start endB Order.Ascending).reverse := by
    simp only [rangeWithPrefix, flatRange]
    rw [List.map_reverse]
  exact ⟨h, fun kv => by rw [h]; exact List.mem_reverse⟩

/-- C6: a namespace segment longer than 65535 bytes makes prefix
construction fail fatally, for the single-segment codec and anywhere inside
the nested codec, with no truncation and no wrapping of the length; every
segment of length at most 65535 bytes encodes successfully, to its exact
2-byte big-endian header followed by the unmodified segment bytes. -/
theorem oversize_namespace_fatal :
    (∀ ns : Bytes, 65535 < ns.length → toLengthPrefixed ns = none) ∧
    (∀ ns : Bytes, ns.length ≤ 65535 →
      toLengthPrefixed ns = some ([ns.length / 256, ns.length % 256] ++ ns)) ∧
    (∀ (nss : List Bytes) (ns : Bytes), ns ∈ nss → 65535 < ns.length →
      toLengthPrefixedNested nss = none) ∧
    (∀ nss : List Bytes, (∀ ns ∈ nss, ns.length ≤ 65535) →
      (toLengthPrefixedNested nss).isSome = true) := by
  refine ⟨?_, ?_, ?_, ?_⟩
  · intro ns h
    simp [toLengthPrefixed, encodeLength, h]
  · intro ns h
    exact toLengthPrefixed_of_le h
  · intro nss
    induction nss with
    | nil =>
      intro ns h
      simp at h
    | cons ns0 rest ih =>
      intro ns hmem hlen
      simp only [List.mem_cons] at hmem
      rcases hmem with rfl | hmem
      · have hnone : toLengthPrefixed ns = none := by
          simp [toLengthPrefixed, encodeLength, hlen]
        simp only [toLengthPrefixedNested, hnone]
      · have hnone := ih ns hmem hlen
        simp only [toLengthPrefixedNested, hnone]
        cases toLengthPrefixed ns0 <;> rfl
  · intro nss h
    rw [toLengthPrefixedNested_flatten nss h]
    rfl

/-- C6, witness: a 65536-byte segment is rejected alone and inside a list;
small segments encode successfully. -/
theorem oversize_namespace_fatal_witness :
    toLengthPrefixed (List.replicate 65536 0) = none ∧
    toLengthPrefixed [7] = some [0, 1, 7] ∧
    toLengthPrefixedNested [[1], List.replicate 65536 0] = none ∧
    (toLengthPrefixedNested [[1], [2]]).isSome = true :=
  ⟨oversize_namespace_fatal.1 (List.replicate 65536 0)
     (by rw [List.length_replicate]; omega),
   (oversize_namespace_fatal.2.1 [7] (by decide)).trans (by decide),
   oversize_namespace_fatal.2.2.1 [[1], List.replicate 65536 0]
     (List.replicate 65536 0)
     (List.mem_cons_of_mem _ (List.mem_singleton_self _))
     (by rw [List.length_replicate]; omega),
   oversize_namespace_fatal.2.2.2 [[1], [2]] (by decide)⟩

/-- C7, counterexample: the distinct namespace-lists `["a"]` and
`["a","b"]` are not isolated: writing through the view for `["a"]` at
logical key `enc("b")` changes what the view for `["a","b"]` reads at the
empty logical key. -/
theorem cross_namespace_isolation_counterexample :
    ([[97]] : List Bytes) ≠ [[97], [98]] ∧
    PrefixedStorage.multilevel flatOps [[97]] = some ⟨flatOps, [0, 1, 97]⟩ ∧
    PrefixedStorage.multilevel flatOps [[97], [98]] =
      some ⟨flatOps, [0, 1, 97, 0, 1, 98]⟩ ∧
    PrefixedStorage.get ⟨flatOps, [0, 1, 97, 0, 1, 98]⟩ [] [] = none ∧
    PrefixedStorage.get ⟨flatOps, [0, 1, 97, 0, 1, 98]⟩
      (PrefixedStorage.set ⟨flatOps, [0, 1, 97]⟩ [] [0, 1, 98] [7]) [] = some [7] := by
  refine ⟨by decide, rfl, rfl, rfl, by decide⟩

/-- C7, amended: cross-namespace isolation holds for views whose
namespace-lists neither extend the other segmentwise: a set or remove
through one view never changes any get or any range scan through the other
(written keys being genuine byte strings, as in the Rust code). -/
theorem cross_namespace_isolation (N1 N2 : List Bytes) (p1 p2 : Bytes)
    (h1 : toLengthPrefixedNested N1 = some p1)
    (h2 : toLengthPrefixedNested N2 = some p2)
    (h12 : ¬ N1 <+: N2) (h21 : ¬ N2 <+: N1)
    (s : Store) (k1 k2 val : Bytes) (hb : allBytes (p1 ++ k1))
    (start endB : Option Bytes) (ord : Order) :
    (PrefixedStorage.mk flatOps p2).get ((PrefixedStorage.mk flatOps p1).set s k1 val) k2 =
      (PrefixedStorage.mk flatOps p2).get s k2 ∧
    (PrefixedStorage.mk flatOps p2).get ((PrefixedStorage.mk flatOps p1).remove s k1) k2 =
      (PrefixedStorage.mk flatOps p2).get s k2 ∧
    (PrefixedStorage.mk flatOps p2).range ((PrefixedStorage.mk flatOps p1).set s k1 val)
        start endB ord =
      (PrefixedStorage.mk flatOps p2).range s start endB ord ∧
    (PrefixedStorage.mk flatOps p2).range ((PrefixedStorage.mk flatOps p1).remove s k1)
        start endB ord =
      (PrefixedStorage.mk flatOps p2).range s start endB ord := by
  obtain ⟨hnp1, hnp2⟩ := nested_encode_not_prefix N1 N2 p1 p2 h1 h2 h12 h21
  have hkey : p2 ++ k2 ≠ p1 ++ k1 := by
    intro he
    have hself : p2 <+: p2 ++ k2 := ⟨k2, rfl⟩
    have ha : p2 <+: p1 ++ k1 := he ▸ hself
    have hap : p1 <+: p1 ++ k1 := ⟨k1, rfl⟩
    rcases List.prefix_or_prefix_of_prefix ha hap with hc | hc
    · exact hnp2 hc
    · exact hnp1 hc
  have hwin : inRange (some (p2 ++ start.getD [])) (physEnd p2 endB) (p1 ++ k1) = false := by
    rcases Bool.eq_false_or_eq_true
        (inRange (some (p2 ++ start.getD [])) (physEnd p2 endB) (p1 ++ k1)) with ht | hf
    · exfalso
      have hpf := prefix_of_inRange (start.getD []) endB hb ht
      have hap : p1 <+: p1 ++ k1 := ⟨k1, rfl⟩
      rcases List.prefix_or_prefix_of_prefix hpf hap with hc | hc
      · exact hnp2 hc
      · exact hnp1 hc
    · exact hf
  have hQ : ∀ v : Bytes,
      (fun kv : Bytes × Bytes =>
        inRange (some (p2 ++ start.getD [])) (physEnd p2 endB) kv.1) (p1 ++ k1, v)
        = false := fun v => hwin
  refine ⟨?_, ?_, ?_, ?_⟩
  · exact flatGet_flatSet_ne s hkey val
  · exact flatGet_flatRemove_ne s hkey
  · show rangeWithPrefix flatRange (flatSet s (p1 ++ k1) val) p2 start endB ord =
      rangeWithPrefix flatRange s p2 start endB ord
    cases ord with
    | Ascending =>
      simp only [rangeWithPrefix, flatRange]
      rw [filter_flatSet_of_not_pass s (p1 ++ k1) val _ hQ]
    | Descending =>
      simp only [rangeWithPrefix, flatRange]
      rw [filter_flatSet_of_not_pass s (p1 ++ k1) val _ hQ]
  · show rangeWithPrefix flatRange (flatRemove s (p1 ++ k1)) p2 start endB ord =
      rangeWithPrefix flatRange s p2 start endB ord
    cases ord with
    | Ascending =>
      simp only [rangeWithPrefix, flatRange]
      rw [filter_flatRemove s (p1 ++ k1) _ hQ]
    | Descending =>
      simp only [rangeWithPrefix, flatRange]
      rw [filter_flatRemove s (p1 ++ k1) _ hQ]

/-- C7, witness: the amended isolation applied to the views for `["a"]` and
`["b"]`: a write through the first is invisible to a get through the
second. -/
theorem cross_namespace_isolation_witness :
    PrefixedStorage.get ⟨flatOps, [0, 1, 98]⟩
      (PrefixedStorage.set ⟨flatOps, [0, 1, 97]⟩ [] [5] [9]) [] =
    PrefixedStorage.get ⟨flatOps, [0, 1, 98]⟩ [] [] :=
  (cross_namespace_isolation [[97]] [[98]] [0, 1, 97] [0, 1, 98] rfl rfl
    (by decide) (by decide) [] [5] [] [9] (by decide) none none Order.Ascending).1

/-- C8: set/get round-trip through a prefixed view: setting a logical key
and then getting it returns exactly the written value, also when a previous
value was already stored under the key (it is silently overwritten). -/
theorem set_get_roundtrip (p k val w : Bytes) (s : Store) :
    (PrefixedStorage.mk flatOps p).get ((PrefixedStorage.mk flatOps p).set s k val) k =
      some val ∧
    (PrefixedStorage.mk flatOps p).get
      ((PrefixedStorage.mk flatOps p).set
        ((PrefixedStorage.mk flatOps p).set s k w) k val) k = some val :=
  ⟨flatGet_flatSet s (p ++ k) val, flatGet_flatSet _ (p ++ k) val⟩

/-- C9: the read-only prefixed view offers only get and range; it computes
its prefix with the same codec and delegates through the same namespace
helpers, so for every namespace and store contents its get and range
results coincide with those of the mutable view. -/
theorem readonly_view_equiv (σ : Type) (B : StorageOps σ) (ns : Bytes)
    (nss : List Bytes) (p : Bytes) (s : σ) (k : Bytes)
    (start endB : Option Bytes) (ord : Order) :
    (ReadonlyPrefixedStorage.new ⟨B.get, B.range⟩ ns).map (fun v => v.pfx) =
      (PrefixedStorage.new B ns).map (fun v => v.pfx) ∧
    (ReadonlyPrefixedStorage.multilevel ⟨B.get, B.range⟩ nss).map (fun v => v.pfx) =
      (PrefixedStorage.multilevel B nss).map (fun v => v.pfx) ∧
    (ReadonlyPrefixedStorage.mk ⟨B.get, B.range⟩ p).get s k =
      (PrefixedStorage.mk B p).get s k ∧
    (ReadonlyPrefixedStorage.mk ⟨B.get, B.range⟩ p).range s start endB ord =
      (PrefixedStorage.mk B p).range s start endB ord := by
  refine ⟨?_, ?_, rfl, rfl⟩
  · simp only [ReadonlyPrefixedStorage.new, PrefixedStorage.new]
    cases toLengthPrefixed ns <;> rfl
  · simp only [ReadonlyPrefixedStorage.multilevel, PrefixedStorage.multilevel]
    cases toLengthPrefixedNested nss <;> rfl

/-- C10: the free function `prefixed` is an alias of
`PrefixedStorage.new`: it returns the identical view, hence the same stored
prefix and identical results for every subsequent get, set, remove and
range call. -/
theorem prefixed_alias_equiv (σ : Type) (B : StorageOps σ) (ns : Bytes)
    (s : σ) (k val : Bytes) (start endB : Option Bytes) (ord : Order) :
    prefixed B ns = PrefixedStorage.new B ns ∧
    (prefixed B ns).map (fun v => v.pfx) =
      (PrefixedStorage.new B ns).map (fun v => v.pfx) ∧
    (prefixed B ns).map (fun v => v.get s k) =
      (PrefixedStorage.new B ns).map (fun v => v.get s k) ∧
    (prefixed B ns).map (fun v => v.set s k val) =
      (PrefixedStorage.new B ns).map (fun v => v.set s k val) ∧
    (prefixed B ns).map (fun v => v.remove s k) =
      (PrefixedStorage.new B ns).map (fun v => v.remove s k) ∧
    (prefixed B ns).map (fun v => v.range s start endB ord) =
      (PrefixedStorage.new B ns).map (fun v => v.range s start endB ord) :=
  ⟨rfl, rfl, rfl, rfl, rfl, rfl⟩

end CwStorage
